import Mathlib

/-!
Verification of the feed-reader normalization logic (Main.py) and the bulk
cacher (cache_feeds.py): a shallow embedding of the XML data model, the
link collector, the entry extractor, the TLS-fallback fetchers and the
output-path resolution, together with theorems about them.
-/

/-- An XML element as exposed by the ElementTree API surface the program
uses: a tag, an attribute list, optional text, and child elements. -/
structure XmlElem where
  tag : String
  attrib : List (String × String)
  text : Option String
  children : List XmlElem
deriving Repr

/-- Python `str.strip()` on the character list: drop whitespace from the
front, then from the back. -/
def stripChars (l : List Char) : List Char :=
  ((l.dropWhile Char.isWhitespace).reverse.dropWhile Char.isWhitespace).reverse

/-- Python `s.strip()`. -/
def pyStrip (s : String) : String :=
  ⟨stripChars s.data⟩

/-- Python `a or b` on an optional string: `a` when it is a non-empty
string, else `b`. -/
def pyOr (a b : Option String) : Option String :=
  match a with
  | some s => if s = "" then b else some s
  | none => b

/-- Python `a or d` where `d` is a plain string default. -/
def pyOrD (a : Option String) (d : String) : String :=
  match a with
  | some s => if s = "" then d else s
  | none => d

/-- `elem.findall(tag)`: the direct children carrying the given tag, in
document order. -/
def XmlElem.findall (e : XmlElem) (t : String) : List XmlElem :=
  e.children.filter (fun c => c.tag == t)

/-- `elem.find(tag)`: the first direct child carrying the given tag. -/
def XmlElem.findChild (e : XmlElem) (t : String) : Option XmlElem :=
  (e.findall t).head?

/-- `elem.findtext(tag)`: the text of the first matching child (`""` when
that child has no text), or `none` when no child matches. -/
def XmlElem.findtext (e : XmlElem) (t : String) : Option String :=
  (e.findChild t).map (fun c => c.text.getD "")

/-- The preorder traversal of a forest of elements (each element followed
by its proper descendants); models the ElementTree `.//` axis applied
below a root. -/
def descendantsList : List XmlElem → List XmlElem
  | [] => []
  | ⟨t, a, x, ch⟩ :: rest => ⟨t, a, x, ch⟩ :: (descendantsList ch ++ descendantsList rest)
termination_by l => sizeOf l
decreasing_by
  all_goals simp
  all_goals omega

/-- `elem.findall(".//tag")`: every descendant with the given tag, in
document order. -/
def XmlElem.findallDesc (e : XmlElem) (t : String) : List XmlElem :=
  (descendantsList e.children).filter (fun c => c.tag == t)

/-- The url-computing statements of the `_collect_links` loop body:
`href` is the trimmed element text, `attr_href` the trimmed `href`
attribute, and `url = href or attr_href`. -/
def collectUrlOf (elem : XmlElem) : String :=
  let href := pyStrip (pyOrD elem.text "")
  let attr_href := pyStrip ((elem.attrib.lookup "href").getD "")
  if href = "" then attr_href else href

/-- The `_collect_links` loop of Main.py, with the accumulated `links`
list made explicit (the `seen` set always holds exactly the accumulated
links, so membership in the accumulator models it). -/
def collectLinksGo : List XmlElem → List String → List String
  | [], links => links
  | elem :: rest, links =>
    let url := collectUrlOf elem
    if url ≠ "" ∧ url ∉ links then collectLinksGo rest (links ++ [url])
    else collectLinksGo rest links

/-- `_collect_links(elements)` from Main.py. -/
def _collect_links (elements : List XmlElem) : List String :=
  collectLinksGo elements []

/-- The Atom namespace marker used by Main.py. -/
def atom_ns : String := "\x7bhttp://www.w3.org/2005/Atom\x7d"

/-- A normalized feed entry `(title, summary, links)`. -/
abbrev Entry := String × String × List String

/-- The trimmed title of an RSS `item`. -/
def rssTitle (item : XmlElem) : String :=
  pyStrip (pyOrD (item.findtext "title") "")

/-- The entry an RSS `item` produces: trimmed description, collected
links, plain-text `link` fallback when the collector found none. -/
def rssEntryOf (item : XmlElem) : Entry :=
  let summary := pyStrip (pyOrD (item.findtext "description") "")
  let links := _collect_links (item.findall "link")
  let links2 :=
    if links = [] then
      let link_text := pyStrip (pyOrD (item.findtext "link") "")
      if link_text ≠ "" then [link_text] else links
    else links
  (rssTitle item, summary, links2)

/-- The RSS loop of `extract_entries`: skip blank titles, append, stop as
soon as the accumulated list reaches `limit`. -/
def rssGo (limit : Int) : List XmlElem → List Entry → List Entry
  | [], entries => entries
  | item :: rest, entries =>
    if rssTitle item = "" then rssGo limit rest entries
    else
      let entries2 := entries ++ [rssEntryOf item]
      if limit ≤ (entries2.length : Int) then entries2
      else rssGo limit rest entries2

/-- The trimmed namespaced title of an Atom `entry`. -/
def atomTitle (ent : XmlElem) : String :=
  pyStrip (pyOrD (ent.findtext (atom_ns ++ "title")) "")

/-- The summary of an Atom `entry`: `summary or content or ""`, trimmed. -/
def atomSummaryOf (ent : XmlElem) : String :=
  pyStrip (pyOrD (pyOr (ent.findtext (atom_ns ++ "summary"))
    (ent.findtext (atom_ns ++ "content"))) "")

/-- The entry an Atom `entry` element produces. -/
def atomEntryOf (ent : XmlElem) : Entry :=
  (atomTitle ent, atomSummaryOf ent, _collect_links (ent.findall (atom_ns ++ "link")))

/-- The Atom loop of `extract_entries`. -/
def atomGo (limit : Int) : List XmlElem → List Entry → List Entry
  | [], entries => entries
  | ent :: rest, entries =>
    if atomTitle ent = "" then atomGo limit rest entries
    else
      let entries2 := entries ++ [atomEntryOf ent]
      if limit ≤ (entries2.length : Int) then entries2
      else atomGo limit rest entries2

/-- `extract_entries(root, limit)` from Main.py: RSS when the root has a
`channel` child, else Atom over all namespaced descendants. -/
def extract_entries (root : XmlElem) (limit : Int) : List Entry :=
  match root.findChild "channel" with
  | some channel => rssGo limit (channel.findall "item") []
  | none => atomGo limit (root.findallDesc (atom_ns ++ "entry")) []

/-- Every entry the RSS loop could produce, in document order. -/
def rssAll (items : List XmlElem) : List Entry :=
  (items.filter (fun i => decide (rssTitle i ≠ ""))).map rssEntryOf

/-- Every entry the Atom loop could produce, in document order. -/
def atomAll (ents : List XmlElem) : List Entry :=
  (ents.filter (fun i => decide (atomTitle i ≠ ""))).map atomEntryOf

/-- Every entry `extract_entries` could produce, in document order. -/
def extractAll (root : XmlElem) : List Entry :=
  match root.findChild "channel" with
  | some channel => rssAll (channel.findall "item")
  | none => atomAll (root.findallDesc (atom_ns ++ "entry"))

/-- The candidate URL of one link element, following the spec of the Link
Collector: the trimmed element text if that is non-empty, else the
trimmed `href` attribute. -/
def specCandidate (e : XmlElem) : String :=
  let t := pyStrip (pyOrD e.text "")
  if t ≠ "" then t else pyStrip ((e.attrib.lookup "href").getD "")

/-- The appending loop of the Link Collector as the spec words it: append
a candidate only if it is non-empty and has not already been appended. -/
def specCollectGo : List String → List String → List String
  | [], acc => acc
  | c :: rest, acc =>
    if c ≠ "" ∧ c ∉ acc then specCollectGo rest (acc ++ [c])
    else specCollectGo rest acc

/-- The Link Collector as the spec describes it: map elements to their
candidate URLs, then keep the non-empty, not-yet-seen ones in order. -/
def specCollect (elements : List XmlElem) : List String :=
  specCollectGo (elements.map specCandidate) []

/-- First-seen deduplication of a list of strings: keep each string's
first occurrence, drop every later duplicate. -/
def dedupFirst : List String → List String
  | [] => []
  | a :: l => a :: dedupFirst (l.filter (fun x => decide (x ≠ a)))
termination_by l => l.length
decreasing_by
  simp only [List.length_cons]
  exact Nat.lt_succ_of_le (List.length_filter_le _ _)

/-- An element carrying a URL as its text, as produced when the Link
Collector's string output is turned back into link elements. -/
def mkLinkElem (u : String) : XmlElem :=
  ⟨"link", [], some u, []⟩

/-- The RSS entry builder without the plain-text `link` fallback branch. -/
def rssEntryOfNF (item : XmlElem) : Entry :=
  let summary := pyStrip (pyOrD (item.findtext "description") "")
  let links := _collect_links (item.findall "link")
  (rssTitle item, summary, links)

/-- The RSS loop built on the fallback-free entry builder. -/
def rssGoNF (limit : Int) : List XmlElem → List Entry → List Entry
  | [], entries => entries
  | item :: rest, entries =>
    if rssTitle item = "" then rssGoNF limit rest entries
    else
      let entries2 := entries ++ [rssEntryOfNF item]
      if limit ≤ (entries2.length : Int) then entries2
      else rssGoNF limit rest entries2

/-- `extract_entries` with the RSS plain-text `link` fallback removed. -/
def extract_entries_nf (root : XmlElem) (limit : Int) : List Entry :=
  match root.findChild "channel" with
  | some channel => rssGoNF limit (channel.findall "item") []
  | none => atomGo limit (root.findallDesc (atom_ns ++ "entry")) []

/-- The SSL context a fetch attempt runs under. -/
inductive SslCtx
  | verified
  | insecure
deriving Repr, DecidableEq

/-- The outcome of one HTTPS GET attempt. -/
inductive Attempt
  | success (body : String)
  | certFailure
  | otherFailure
deriving Repr, DecidableEq

/-- The stream an output line is written to. -/
inductive StreamKind
  | stdout
  | stderr
deriving Repr, DecidableEq

/-- What a fetch did: the attempts it made (with their contexts, in
order), the lines it wrote, and the body it returned (`none` when the
error propagated). -/
structure FetchTrace where
  attempts : List SslCtx
  output : List (StreamKind × String)
  result : Option String
deriving Repr, DecidableEq

/-- The warning `fetch_feed` prints on the certificate-fallback path. -/
def fetchWarnMsg : String :=
  "Zertifikatspruefung fehlgeschlagen, versuche es ohne Pruefung erneut..."

/-- The warning `download_bytes` prints on the certificate-fallback path. -/
def cacheWarnMsg : String :=
  "Warnung: Zertifikatsproblem, lade mit deaktivierter Pruefung..."

/-- `fetch_feed` of Main.py over an abstract network (one outcome per SSL
context): try with verification; on a certificate-verification failure
warn on stderr and retry once without verification; re-raise anything
else. -/
def fetch_feed (net : SslCtx → Attempt) : FetchTrace :=
  match net SslCtx.verified with
  | Attempt.success b => ⟨[SslCtx.verified], [], some b⟩
  | Attempt.otherFailure => ⟨[SslCtx.verified], [], none⟩
  | Attempt.certFailure =>
    match net SslCtx.insecure with
    | Attempt.success b =>
      ⟨[SslCtx.verified, SslCtx.insecure], [(StreamKind.stderr, fetchWarnMsg)], some b⟩
    | _ =>
      ⟨[SslCtx.verified, SslCtx.insecure], [(StreamKind.stderr, fetchWarnMsg)], none⟩

/-- `download_bytes` of cache_feeds.py: same fallback shape, but the
warning is printed with a plain `print`, i.e. to stdout. -/
def download_bytes (net : SslCtx → Attempt) : FetchTrace :=
  match net SslCtx.verified with
  | Attempt.success b => ⟨[SslCtx.verified], [], some b⟩
  | Attempt.otherFailure => ⟨[SslCtx.verified], [], none⟩
  | Attempt.certFailure =>
    match net SslCtx.insecure with
    | Attempt.success b =>
      ⟨[SslCtx.verified, SslCtx.insecure], [(StreamKind.stdout, cacheWarnMsg)], some b⟩
    | _ =>
      ⟨[SslCtx.verified, SslCtx.insecure], [(StreamKind.stdout, cacheWarnMsg)], none⟩

/-- The static feed table `FEEDS` of Main.py. -/
def FEEDS : List (Nat × String × String) :=
  [(1, ("Haufe Nachrichten", "https://www.haufe.de/xml/rss_129128.xml")),
   (2, ("Bundesregierung", "https://www.bundesregierung.de/service/rss/breg-de/1151244/feed.xml")),
   (3, ("Handelsblatt Politik", "http://www.handelsblatt.com/contentexport/feed/politik")),
   (4, ("Springer IT", "https://www.springerprofessional.de/rss/rss-feeds/7097080"))]

/-- The explicit output-file mapping `OUTPUT_FILES` of cache_feeds.py. -/
def OUTPUT_FILES : List (Nat × String) :=
  [(1, "feeds/haufe.xml"),
   (2, "feeds/bundesregierung.xml"),
   (3, "feeds/handelsblatt.xml")]

/-- `OUTPUT_FILES.get(feed_id, f"feeds/feed_.xml" with the id spliced
in)` as resolved by `main` of cache_feeds.py. -/
def resolveOutputPath (feed_id : Nat) : String :=
  (OUTPUT_FILES.lookup feed_id).getD ("feeds/feed_" ++ toString feed_id ++ ".xml")

/-- The (feed id, output path) plan the Bulk Cacher iterates over. -/
def cachePlan : List (Nat × String) :=
  FEEDS.map (fun f => (f.1, resolveOutputPath f.1))

/-- A small RSS document: channel with items titled " A " (with duplicate
links), " " (blank) and "B". -/
def exRss : XmlElem :=
  ⟨"rss", [], none,
    [⟨"channel", [], none,
      [⟨"item", [], none,
        [⟨"title", [], some " A ", []⟩,
         ⟨"link", [], some " http://x ", []⟩,
         ⟨"link", [], some "http://x", []⟩]⟩,
       ⟨"item", [], none, [⟨"title", [], some " ", []⟩]⟩,
       ⟨"item", [], none, [⟨"title", [], some "B", []⟩]⟩]⟩]⟩

/-- A small Atom document whose entry has no summary and content
"hello". -/
def exAtomC : XmlElem :=
  ⟨"feed", [], none,
    [⟨atom_ns ++ "entry", [], none,
      [⟨atom_ns ++ "title", [], some "T", []⟩,
       ⟨atom_ns ++ "content", [], some " hello ", []⟩]⟩]⟩

/-- A small Atom document whose entry has one link element carrying both
text "http://t" and an `href` attribute "http://h". -/
def exAtomBoth : XmlElem :=
  ⟨"feed", [], none,
    [⟨atom_ns ++ "entry", [], none,
      [⟨atom_ns ++ "title", [], some "T", []⟩,
       ⟨atom_ns ++ "link", [("href", "http://h")], some "http://t", []⟩]⟩]⟩

/-- A network where the verified attempt fails certificate verification
and the insecure retry succeeds. -/
def exNetCert : SslCtx → Attempt
  | SslCtx.verified => Attempt.certFailure
  | SslCtx.insecure => Attempt.success "feedxml"

/-- A network where the verified attempt fails with a non-certificate
transport error. -/
def exNetOther : SslCtx → Attempt
  | SslCtx.verified => Attempt.otherFailure
  | SslCtx.insecure => Attempt.success "feedxml"

/-- A network where the verified attempt succeeds. -/
def exNetOk : SslCtx → Attempt
  | _ => Attempt.success "feedxml"

/-- Dropping a prefix by a predicate is idempotent. -/
theorem dropWhile_twice {α : Type} (p : α → Bool) (l : List α) :
    (l.dropWhile p).dropWhile p = l.dropWhile p := by
  induction l with
  | nil => rfl
  | cons a t ih =>
    cases hp : p a <;> simp [List.dropWhile_cons, hp, ih]

/-- If a concatenation is unchanged by `dropWhile`, so is its first part. -/
theorem dropWhile_left_of_append {α : Type} (p : α → Bool) (y g : List α)
    (h : (y ++ g).dropWhile p = y ++ g) : y.dropWhile p = y := by
  cases y with
  | nil => rfl
  | cons a t =>
    have hpa : p a = false := by
      cases hp : p a
      · rfl
      · exfalso
        rw [List.cons_append, List.dropWhile_cons, hp] at h
        simp only [if_true] at h
        have hle : ((t ++ g).dropWhile p).length ≤ (t ++ g).length :=
          (List.dropWhile_suffix p).sublist.length_le
        rw [h] at hle
        simp at hle
    simp [List.dropWhile_cons, hpa]

/-- Stripping a character list twice is the same as stripping it once. -/
theorem stripChars_idem (l : List Char) : stripChars (stripChars l) = stripChars l := by
  simp only [stripChars]
  have hmm : (l.dropWhile Char.isWhitespace).dropWhile Char.isWhitespace
      = l.dropWhile Char.isWhitespace := dropWhile_twice _ l
  set m := l.dropWhile Char.isWhitespace with hm
  have hsplit : m = (m.reverse.dropWhile Char.isWhitespace).reverse
      ++ (m.reverse.takeWhile Char.isWhitespace).reverse := by
    have hsd := List.takeWhile_append_dropWhile Char.isWhitespace m.reverse
    calc m = (m.reverse).reverse := (List.reverse_reverse m).symm
    _ = (m.reverse.takeWhile Char.isWhitespace
          ++ m.reverse.dropWhile Char.isWhitespace).reverse := by rw [hsd]
    _ = (m.reverse.dropWhile Char.isWhitespace).reverse
          ++ (m.reverse.takeWhile Char.isWhitespace).reverse := by rw [List.reverse_append]
  have hfront : ((m.reverse.dropWhile Char.isWhitespace).reverse).dropWhile Char.isWhitespace
      = (m.reverse.dropWhile Char.isWhitespace).reverse := by
    apply dropWhile_left_of_append Char.isWhitespace _
      ((m.reverse.takeWhile Char.isWhitespace).reverse)
    rw [← hsplit]
    exact hmm
  rw [hfront, List.reverse_reverse, dropWhile_twice]

/-- `pyStrip` is idempotent. -/
theorem pyStrip_idem (s : String) : pyStrip (pyStrip s) = pyStrip s := by
  simp [pyStrip, stripChars_idem]

/-- Stripping the empty string gives the empty string. -/
theorem pyStrip_empty : pyStrip "" = "" := rfl

/-- A collected candidate url is already stripped. -/
theorem collectUrlOf_strip (e : XmlElem) : pyStrip (collectUrlOf e) = collectUrlOf e := by
  simp only [collectUrlOf]
  split
  · exact pyStrip_idem _
  · exact pyStrip_idem _

/-- The collector only ever appends to its accumulator. -/
theorem collectLinksGo_append (es : List XmlElem) : ∀ (acc : List String),
    ∃ t, collectLinksGo es acc = acc ++ t := by
  induction es with
  | nil => intro acc; exact ⟨[], by simp [collectLinksGo]⟩
  | cons e rest ih =>
    intro acc
    simp only [collectLinksGo]
    split
    · obtain ⟨t, ht⟩ := ih (acc ++ [collectUrlOf e])
      exact ⟨[collectUrlOf e] ++ t, by rw [ht, List.append_assoc]⟩
    · exact ih acc

/-- Everything the collector returns is a stripped, non-empty string,
provided the accumulator already satisfies that. -/
theorem collectLinksGo_clean (es : List XmlElem) : ∀ (acc : List String),
    (∀ a ∈ acc, pyStrip a = a ∧ a ≠ "") →
    ∀ u ∈ collectLinksGo es acc, pyStrip u = u ∧ u ≠ "" := by
  induction es with
  | nil => intro acc h; simpa [collectLinksGo] using h
  | cons e rest ih =>
    intro acc h
    simp only [collectLinksGo]
    split
    · rename_i hc
      apply ih
      intro a ha
      rcases List.mem_append.mp ha with ha | ha
      · exact h a ha
      · simp only [List.mem_singleton] at ha
        subst ha
        exact ⟨collectUrlOf_strip e, hc.1⟩
    · exact ih acc h

/-- The collector never introduces a duplicate. -/
theorem collectLinksGo_nodup (es : List XmlElem) : ∀ (acc : List String),
    acc.Nodup → (collectLinksGo es acc).Nodup := by
  induction es with
  | nil => intro acc h; simpa [collectLinksGo] using h
  | cons e rest ih =>
    intro acc h
    simp only [collectLinksGo]
    split
    · rename_i hc
      apply ih
      simp [List.nodup_append, h, hc.2]
    · exact ih acc h

/-- If the collector returns nothing, every element's candidate url was
empty. -/
theorem collect_links_eq_nil (es : List XmlElem) :
    _collect_links es = [] → ∀ e ∈ es, collectUrlOf e = "" := by
  unfold _collect_links
  induction es with
  | nil => intro _ e he; cases he
  | cons e rest ih =>
    intro h f hf
    simp only [collectLinksGo] at h
    split at h
    · obtain ⟨t, ht⟩ := collectLinksGo_append rest ([] ++ [collectUrlOf e])
      rw [ht] at h
      simp at h
    · rename_i hc
      have he0 : collectUrlOf e = "" := by
        by_contra hne
        exact hc ⟨hne, by simp⟩
      rcases List.mem_cons.mp hf with rfl | hf
      · exact he0
      · exact ih h f hf

/-- Collecting a clean, duplicate-free list of urls wrapped as text-only
link elements returns exactly that list. -/
theorem collectLinksGo_of_clean : ∀ (us acc : List String),
    us.Nodup → (∀ u ∈ us, pyStrip u = u ∧ u ≠ "" ∧ u ∉ acc) →
    collectLinksGo (us.map mkLinkElem) acc = acc ++ us := by
  intro us
  induction us with
  | nil => intro acc _ _; simp [collectLinksGo]
  | cons u rest ih =>
    intro acc hnd h
    have hu := h u (List.mem_cons_self u rest)
    have hurl : collectUrlOf (mkLinkElem u) = u := by
      simp only [collectUrlOf, mkLinkElem, pyOrD]
      rw [if_neg hu.2.1, hu.1, if_neg hu.2.1]
    simp only [List.map_cons, collectLinksGo, hurl]
    rw [if_pos ⟨hu.2.1, hu.2.2⟩]
    have hnd' := List.Nodup.of_cons hnd
    have hnotmem : u ∉ rest := (List.nodup_cons.mp hnd).1
    rw [ih (acc ++ [u]) hnd' ?_]
    · rw [List.append_assoc]
      rfl
    · intro v hv
      obtain ⟨h1, h2, h3⟩ := h v (List.mem_cons_of_mem u hv)
      refine ⟨h1, h2, ?_⟩
      intro hvm
      rcases List.mem_append.mp hvm with hvm | hvm
      · exact h3 hvm
      · simp only [List.mem_singleton] at hvm
        subst hvm
        exact hnotmem hv

/-- The spec's candidate url and the code's candidate url agree. -/
theorem specCandidate_eq_collectUrlOf (e : XmlElem) :
    specCandidate e = collectUrlOf e := by
  simp only [specCandidate, collectUrlOf]
  by_cases h : pyStrip (pyOrD e.text "") = "" <;> simp [h]

/-- The code's collector loop is the spec's loop over the mapped
candidates. -/
theorem collectLinksGo_eq_spec (es : List XmlElem) : ∀ (acc : List String),
    collectLinksGo es acc = specCollectGo (es.map specCandidate) acc := by
  induction es with
  | nil => intro acc; simp [collectLinksGo, specCollectGo]
  | cons e rest ih =>
    intro acc
    simp only [List.map_cons, collectLinksGo, specCollectGo, specCandidate_eq_collectUrlOf]
    split
    · exact ih _
    · exact ih _

/-- The spec's appending loop performs a first-seen deduplication of the
candidates that are non-empty and not already in the accumulator. -/
theorem specCollectGo_eq_dedupFirst : ∀ (cs acc : List String),
    specCollectGo cs acc
      = acc ++ dedupFirst (cs.filter (fun c => decide (c ≠ "" ∧ c ∉ acc))) := by
  intro cs
  induction cs with
  | nil => intro acc; simp [specCollectGo, dedupFirst]
  | cons c rest ih =>
    intro acc
    by_cases h : c ≠ "" ∧ c ∉ acc
    · simp only [specCollectGo, if_pos h, List.filter_cons]
      rw [ih (acc ++ [c])]
      have hd : decide (c ≠ "" ∧ c ∉ acc) = true := by simp [h.1, h.2]
      rw [hd]
      simp only [if_true]
      rw [dedupFirst]
      have hff : (rest.filter (fun x => decide (x ≠ "" ∧ x ∉ acc))).filter
            (fun x => decide (x ≠ c))
          = rest.filter (fun x => decide (x ≠ "" ∧ x ∉ acc ++ [c])) := by
        rw [List.filter_filter]
        apply List.filter_congr
        intro a _
        rw [← Bool.decide_and, decide_eq_decide]
        simp [List.mem_append]
        tauto
      rw [hff, List.append_assoc]
      rfl
    · simp only [specCollectGo, if_neg h, List.filter_cons]
      rw [ih acc]
      have hd : decide (c ≠ "" ∧ c ∉ acc) = false := by
        simp only [decide_eq_false_iff_not]
        exact h
      rw [hd]
      simp only [Bool.false_eq_true, if_false]

/-- The spec's collector is a first-seen deduplication of the non-empty
candidate urls. -/
theorem specCollect_eq_dedupFirst (es : List XmlElem) :
    specCollect es
      = dedupFirst ((es.map specCandidate).filter (fun c => decide (c ≠ ""))) := by
  unfold specCollect
  rw [specCollectGo_eq_dedupFirst]
  simp only [List.nil_append]
  congr 1
  apply List.filter_congr
  intro a _
  simp

/-- Everything the RSS loop returns is either from the accumulator or
the entry of an item with a non-blank title. -/
theorem rssGo_mem (limit : Int) (items : List XmlElem) : ∀ (acc : List Entry),
    ∀ e ∈ rssGo limit items acc,
      e ∈ acc ∨ ∃ item ∈ items, rssTitle item ≠ "" ∧ e = rssEntryOf item := by
  induction items with
  | nil =>
    intro acc e he
    left
    simpa [rssGo] using he
  | cons item rest ih =>
    intro acc e he
    simp only [rssGo] at he
    split at he
    · rcases ih acc e he with h | ⟨it, hit, ht, hee⟩
      · left; exact h
      · right; exact ⟨it, List.mem_cons_of_mem _ hit, ht, hee⟩
    · rename_i ht
      split at he
      · rcases List.mem_append.mp he with h | h
        · left; exact h
        · right
          refine ⟨item, List.mem_cons_self _ _, ht, ?_⟩
          simpa using h
      · rcases ih _ e he with h | ⟨it, hit, ht2, hee⟩
        · rcases List.mem_append.mp h with h | h
          · left; exact h
          · right
            refine ⟨item, List.mem_cons_self _ _, ht, ?_⟩
            simpa using h
        · right; exact ⟨it, List.mem_cons_of_mem _ hit, ht2, hee⟩

/-- Everything the Atom loop returns is either from the accumulator or
the entry of an element with a non-blank title. -/
theorem atomGo_mem (limit : Int) (ents : List XmlElem) : ∀ (acc : List Entry),
    ∀ e ∈ atomGo limit ents acc,
      e ∈ acc ∨ ∃ ent ∈ ents, atomTitle ent ≠ "" ∧ e = atomEntryOf ent := by
  induction ents with
  | nil =>
    intro acc e he
    left
    simpa [atomGo] using he
  | cons ent rest ih =>
    intro acc e he
    simp only [atomGo] at he
    split at he
    · rcases ih acc e he with h | ⟨it, hit, ht, hee⟩
      · left; exact h
      · right; exact ⟨it, List.mem_cons_of_mem _ hit, ht, hee⟩
    · rename_i ht
      split at he
      · rcases List.mem_append.mp he with h | h
        · left; exact h
        · right
          refine ⟨ent, List.mem_cons_self _ _, ht, ?_⟩
          simpa using h
      · rcases ih _ e he with h | ⟨it, hit, ht2, hee⟩
        · rcases List.mem_append.mp h with h | h
          · left; exact h
          · right
            refine ⟨ent, List.mem_cons_self _ _, ht, ?_⟩
            simpa using h
        · right; exact ⟨it, List.mem_cons_of_mem _ hit, ht2, hee⟩

/-- For a not-yet-full accumulator, the RSS loop appends exactly the next
qualifying entries up to the limit. -/
theorem rssGo_take (limit : Int) : ∀ (items : List XmlElem) (acc : List Entry),
    (acc.length : Int) < limit →
    rssGo limit items acc
      = acc ++ (rssAll items).take (limit - (acc.length : Int)).toNat := by
  intro items
  induction items with
  | nil => intro acc _; simp [rssGo, rssAll]
  | cons item rest ih =>
    intro acc hlt
    simp only [rssGo]
    split
    · rename_i ht
      rw [ih acc hlt]
      simp [rssAll, List.filter_cons, ht]
    · rename_i ht
      have hfc : (rssAll (item :: rest)) = rssEntryOf item :: rssAll rest := by
        simp [rssAll, List.filter_cons, ht]
      split
      · rename_i hfull
        simp only [List.length_append, List.length_cons, List.length_nil] at hfull
        have hlim : limit = (acc.length : Int) + 1 := by
          push_cast at hfull
          omega
        have h1 : (limit - (acc.length : Int)).toNat = 1 := by omega
        rw [hfc, h1]
        simp
      · rename_i hfull
        simp only [List.length_append, List.length_cons, List.length_nil] at hfull
        have hlt2 : ((acc ++ [rssEntryOf item]).length : Int) < limit := by
          push_cast at hfull ⊢
          simp only [List.length_append, List.length_singleton]
          push_cast
          omega
        rw [ih _ hlt2, hfc]
        have h1 : (limit - (acc.length : Int)).toNat
            = ((limit - (((acc ++ [rssEntryOf item]).length : Nat) : Int)).toNat) + 1 := by
          simp only [List.length_append, List.length_singleton]
          push_cast
          omega
        rw [h1, List.take_succ_cons, List.append_assoc]
        rfl

/-- For a not-yet-full accumulator, the Atom loop appends exactly the
next qualifying entries up to the limit. -/
theorem atomGo_take (limit : Int) : ∀ (ents : List XmlElem) (acc : List Entry),
    (acc.length : Int) < limit →
    atomGo limit ents acc
      = acc ++ (atomAll ents).take (limit - (acc.length : Int)).toNat := by
  intro ents
  induction ents with
  | nil => intro acc _; simp [atomGo, atomAll]
  | cons ent rest ih =>
    intro acc hlt
    simp only [atomGo]
    split
    · rename_i ht
      rw [ih acc hlt]
      simp [atomAll, List.filter_cons, ht]
    · rename_i ht
      have hfc : (atomAll (ent :: rest)) = atomEntryOf ent :: atomAll rest := by
        simp [atomAll, List.filter_cons, ht]
      split
      · rename_i hfull
        simp only [List.length_append, List.length_cons, List.length_nil] at hfull
        have h1 : (limit - (acc.length : Int)).toNat = 1 := by
          push_cast at hfull
          omega
        rw [hfc, h1]
        simp
      · rename_i hfull
        simp only [List.length_append, List.length_cons, List.length_nil] at hfull
        have hlt2 : ((acc ++ [atomEntryOf ent]).length : Int) < limit := by
          push_cast at hfull ⊢
          simp only [List.length_append, List.length_singleton]
          push_cast
          omega
        rw [ih _ hlt2, hfc]
        have h1 : (limit - (acc.length : Int)).toNat
            = ((limit - (((acc ++ [atomEntryOf ent]).length : Nat) : Int)).toNat) + 1 := by
          simp only [List.length_append, List.length_singleton]
          push_cast
          omega
        rw [h1, List.take_succ_cons, List.append_assoc]
        rfl

/-- With a non-positive limit, the RSS loop stops right after the first
qualifying item. -/
theorem rssGo_nonpos (limit : Int) (h : limit ≤ 0) : ∀ (items : List XmlElem),
    rssGo limit items [] = (rssAll items).take 1 := by
  intro items
  induction items with
  | nil => simp [rssGo, rssAll]
  | cons item rest ih =>
    simp only [rssGo]
    split
    · rename_i ht
      rw [ih]
      simp [rssAll, List.filter_cons, ht]
    · rename_i ht
      rw [if_pos (by simp; omega)]
      simp [rssAll, List.filter_cons, ht]

/-- With a non-positive limit, the Atom loop stops right after the first
qualifying element. -/
theorem atomGo_nonpos (limit : Int) (h : limit ≤ 0) : ∀ (ents : List XmlElem),
    atomGo limit ents [] = (atomAll ents).take 1 := by
  intro ents
  induction ents with
  | nil => simp [atomGo, atomAll]
  | cons ent rest ih =>
    simp only [atomGo]
    split
    · rename_i ht
      rw [ih]
      simp [atomAll, List.filter_cons, ht]
    · rename_i ht
      rw [if_pos (by simp; omega)]
      simp [atomAll, List.filter_cons, ht]

/-- Case analysis of the Atom `summary or content or ""` chain. -/
theorem atomSummary_cases (ent : XmlElem) :
    (∀ s, ent.findtext (atom_ns ++ "summary") = some s → s ≠ "" →
      atomSummaryOf ent = pyStrip s) ∧
    ((ent.findtext (atom_ns ++ "summary") = none ∨
      ent.findtext (atom_ns ++ "summary") = some "") →
      (∀ c, ent.findtext (atom_ns ++ "content") = some c →
        atomSummaryOf ent = pyStrip c) ∧
      (ent.findtext (atom_ns ++ "content") = none → atomSummaryOf ent = "")) := by
  constructor
  · intro s hs hne
    simp [atomSummaryOf, hs, pyOr, pyOrD, hne]
  · intro h0
    constructor
    · intro c hc
      by_cases hcc : c = ""
      · rcases h0 with h0 | h0 <;>
          simp [atomSummaryOf, h0, hc, pyOr, pyOrD, hcc, pyStrip_empty]
      · rcases h0 with h0 | h0 <;>
          simp [atomSummaryOf, h0, hc, pyOr, pyOrD, hcc]
    · intro hc
      rcases h0 with h0 | h0 <;>
        simp [atomSummaryOf, h0, hc, pyOr, pyOrD, pyStrip_empty]

/-- `x or ""` ignores the difference between a missing string and an
empty one. -/
theorem pyOrD_getD (o : Option String) : pyOrD (some (o.getD "")) "" = pyOrD o "" := by
  cases o with
  | none => rfl
  | some s => rfl

/-- The RSS plain-text fallback never fires: the links of an RSS entry
are always exactly what the collector returned. -/
theorem rssEntryOf_links (item : XmlElem) :
    (rssEntryOf item).2.2 = _collect_links (item.findall "link") := by
  simp only [rssEntryOf]
  by_cases h : _collect_links (item.findall "link") = []
  · rw [if_pos h]
    have hlt : pyStrip (pyOrD (item.findtext "link") "") = "" := by
      cases hfa : item.findall "link" with
      | nil =>
        have : item.findtext "link" = none := by
          simp [XmlElem.findtext, XmlElem.findChild, hfa]
        rw [this]
        exact pyStrip_empty
      | cons e tl =>
        have hurl : collectUrlOf e = "" := by
          apply collect_links_eq_nil _ h
          rw [hfa]
          exact List.mem_cons_self _ _
        have hhref : pyStrip (pyOrD e.text "") = "" := by
          by_contra hne
          simp only [collectUrlOf, if_neg hne] at hurl
          exact hne hurl
        have htext : item.findtext "link" = some (e.text.getD "") := by
          simp [XmlElem.findtext, XmlElem.findChild, hfa]
        rw [htext, pyOrD_getD]
        exact hhref
    simp [hlt, h]
  · rw [if_neg h]

/-- The RSS entry builder agrees with its fallback-free variant. -/
theorem rssEntryOf_eq_nf (item : XmlElem) : rssEntryOf item = rssEntryOfNF item := by
  have h3 := rssEntryOf_links item
  refine Prod.ext rfl (Prod.ext rfl ?_)
  simpa [rssEntryOfNF] using h3

/-- The RSS loop agrees with its fallback-free variant. -/
theorem rssGo_eq_nf (limit : Int) : ∀ (items : List XmlElem) (acc : List Entry),
    rssGo limit items acc = rssGoNF limit items acc := by
  intro items
  induction items with
  | nil => intro acc; simp [rssGo, rssGoNF]
  | cons item rest ih =>
    intro acc
    simp only [rssGo, rssGoNF, rssEntryOf_eq_nf]
    split
    · exact ih acc
    · split
      · rfl
      · exact ih _

/-- C1: every entry returned by `extract_entries` carries a non-empty
title (titles are stored trimmed, so this is non-emptiness after
trimming); consequently an item or entry whose trimmed title is empty
contributes no output entry. -/
theorem C1_extract_titles_nonempty (root : XmlElem) (limit : Int) :
    ∀ e ∈ extract_entries root limit, e.1 ≠ "" := by
  intro e he
  unfold extract_entries at he
  cases hc : root.findChild "channel" with
  | some channel =>
    rw [hc] at he
    have he2 : e ∈ rssGo limit (channel.findall "item") [] := he
    rcases rssGo_mem limit _ [] e he2 with h | ⟨item, _, ht, hee⟩
    · cases h
    · rw [hee]
      simpa [rssEntryOf] using ht
  | none =>
    rw [hc] at he
    have he2 : e ∈ atomGo limit (root.findallDesc (atom_ns ++ "entry")) [] := he
    rcases atomGo_mem limit _ [] e he2 with h | ⟨ent, _, ht, hee⟩
    · cases h
    · rw [hee]
      simpa [atomEntryOf] using ht

/-- Witness for C1: the first entry of the example RSS document has a
non-empty title. -/
theorem C1_extract_titles_nonempty_witness :
    (("A", "", ["http://x"]) : Entry) ∈ extract_entries exRss 5 ∧
    (("A", "", ["http://x"]) : Entry).1 ≠ "" :=
  ⟨by decide, C1_extract_titles_nonempty exRss 5 _ (by decide)⟩

/-- C2: for `limit ≥ 1` the extractor returns at most `limit` entries,
and the returned list is the document-order list of qualifying entries
truncated at `limit`. -/
theorem C2_extract_limit_order (root : XmlElem) (limit : Int) (h : 1 ≤ limit) :
    ((extract_entries root limit).length : Int) ≤ limit ∧
    extract_entries root limit = (extractAll root).take limit.toNat := by
  have hmain : extract_entries root limit = (extractAll root).take limit.toNat := by
    unfold extract_entries extractAll
    cases hc : root.findChild "channel" with
    | some channel =>
      have hg := rssGo_take limit (channel.findall "item") [] (by simp; omega)
      simpa using hg
    | none =>
      have hg := atomGo_take limit (root.findallDesc (atom_ns ++ "entry")) []
        (by simp; omega)
      simpa using hg
  refine ⟨?_, hmain⟩
  rw [hmain]
  have hlen := List.length_take_le limit.toNat (extractAll root)
  omega

/-- Witness for C2 at the example RSS document with limit 5. -/
theorem C2_extract_limit_order_witness :
    ((1 : Int) ≤ 5) ∧
    (((extract_entries exRss 5).length : Int) ≤ 5 ∧
      extract_entries exRss 5 = (extractAll exRss).take (5 : Int).toNat) :=
  ⟨by norm_num, C2_extract_limit_order exRss 5 (by norm_num)⟩

/-- C4: the code's link collector equals the spec's collector (candidate
is trimmed text, else trimmed href; append iff non-empty and unseen), it
performs a first-seen deduplication of the non-empty candidates, and its
result is duplicate-free. -/
theorem C4_collect_links_spec (es : List XmlElem) :
    _collect_links es = specCollect es ∧
    _collect_links es
      = dedupFirst ((es.map specCandidate).filter (fun c => decide (c ≠ ""))) ∧
    (_collect_links es).Nodup := by
  have h1 : _collect_links es = specCollect es := by
    unfold _collect_links specCollect
    exact collectLinksGo_eq_spec es []
  refine ⟨h1, ?_, ?_⟩
  · rw [h1, specCollect_eq_dedupFirst]
  · exact collectLinksGo_nodup es [] List.nodup_nil

/-- C7: re-collecting elements whose urls are the collector's own output
returns that output unchanged. -/
theorem C7_collect_idempotent (es : List XmlElem) :
    _collect_links ((_collect_links es).map mkLinkElem) = _collect_links es := by
  have hclean := collectLinksGo_clean es [] (by intro a ha; cases ha)
  have hnd := collectLinksGo_nodup es [] List.nodup_nil
  have hof : collectLinksGo ((collectLinksGo es []).map mkLinkElem) []
      = [] ++ collectLinksGo es [] := by
    apply collectLinksGo_of_clean _ _ hnd
    intro u hu
    exact ⟨(hclean u hu).1, (hclean u hu).2, by simp⟩
  unfold _collect_links
  simpa using hof

/-- C9: the RSS plain-text link fallback never contributes a url: every
RSS entry's links are exactly the collector's output, and the extractor
equals its fallback-free variant on every document and limit. -/
theorem C9_rss_link_fallback_vacuous :
    (∀ item : XmlElem, (rssEntryOf item).2.2 = _collect_links (item.findall "link")) ∧
    (∀ (root : XmlElem) (limit : Int),
      extract_entries root limit = extract_entries_nf root limit) := by
  refine ⟨rssEntryOf_links, ?_⟩
  intro root limit
  unfold extract_entries extract_entries_nf
  cases root.findChild "channel" with
  | some channel => exact rssGo_eq_nf limit _ []
  | none => rfl

/-- C10: with a non-positive limit the extractor still returns the first
qualifying entry when one exists (never more than one), and the empty
list otherwise, because the limit check runs only after an append. -/
theorem C10_extract_nonpositive_limit (root : XmlElem) (limit : Int) (h : limit ≤ 0) :
    extract_entries root limit = (extractAll root).take 1 ∧
    (extract_entries root limit).length ≤ 1 ∧
    (extractAll root ≠ [] → extract_entries root limit ≠ []) ∧
    (extractAll root = [] → extract_entries root limit = []) := by
  have hmain : extract_entries root limit = (extractAll root).take 1 := by
    unfold extract_entries extractAll
    cases hc : root.findChild "channel" with
    | some channel => exact rssGo_nonpos limit h _
    | none => exact atomGo_nonpos limit h _
  refine ⟨hmain, ?_, ?_, ?_⟩
  · rw [hmain]
    exact List.length_take_le _ _
  · intro hne
    rw [hmain]
    cases hx : extractAll root with
    | nil => exact absurd hx hne
    | cons a l => simp
  · intro hnil
    rw [hmain, hnil]
    rfl

/-- Witness for C10 at the example RSS document with limit 0. -/
theorem C10_extract_nonpositive_limit_witness :
    ((0 : Int) ≤ 0) ∧
    (extract_entries exRss 0 = (extractAll exRss).take 1 ∧
     (extract_entries exRss 0).length ≤ 1 ∧
     (extractAll exRss ≠ [] → extract_entries exRss 0 ≠ []) ∧
     (extractAll exRss = [] → extract_entries exRss 0 = [])) :=
  ⟨by norm_num, C10_extract_nonpositive_limit exRss 0 (by norm_num)⟩

/-- C3 counterexample: an Atom link element carrying both text
"http://t" and an `href` attribute "http://h" contributes the text, not
the `href` attribute, so "href if present, else text" is false. -/
theorem C3_href_priority_counterexample :
    extract_entries exAtomBoth 5 = [("T", "", ["http://t"])] ∧
    (⟨atom_ns ++ "link", [("href", "http://h")], some "http://t", []⟩
      : XmlElem).attrib.lookup "href" = some "http://h" ∧
    extract_entries exAtomBoth 5 ≠ [("T", "", ["http://h"])] := by
  have hev : extract_entries exAtomBoth 5 = [("T", "", ["http://t"])] := by
    simp only [extract_entries, exAtomBoth, XmlElem.findallDesc, descendantsList]
    decide
  refine ⟨hev, rfl, ?_⟩
  rw [hev]
  decide

/-- C3 (amended): in an Atom document each produced entry's links are
the collector's output over the entry's namespaced link elements, where
each element's candidate url is its trimmed text if non-empty, else its
trimmed `href` attribute. -/
theorem C3_atom_link_text_first (root : XmlElem) (limit : Int)
    (h : root.findChild "channel" = none) :
    ∀ e ∈ extract_entries root limit,
      ∃ ent ∈ root.findallDesc (atom_ns ++ "entry"),
        e.2.2 = _collect_links (ent.findall (atom_ns ++ "link")) ∧
        e.2.2 = specCollect (ent.findall (atom_ns ++ "link")) ∧
        ∀ le ∈ ent.findall (atom_ns ++ "link"),
          specCandidate le
            = (if pyStrip (pyOrD le.text "") ≠ "" then pyStrip (pyOrD le.text "")
               else pyStrip ((le.attrib.lookup "href").getD "")) := by
  intro e he
  unfold extract_entries at he
  rw [h] at he
  have he2 : e ∈ atomGo limit (root.findallDesc (atom_ns ++ "entry")) [] := he
  rcases atomGo_mem limit _ [] e he2 with h0 | ⟨ent, hent, _, hee⟩
  · cases h0
  refine ⟨ent, hent, ?_, ?_, ?_⟩
  · rw [hee]
    simp [atomEntryOf]
  · rw [hee]
    show (atomEntryOf ent).2.2 = _
    simp only [atomEntryOf]
    unfold _collect_links specCollect
    exact collectLinksGo_eq_spec _ []
  · intro le _
    simp [specCandidate]

/-- Witness for the amended C3 at the concrete Atom document. -/
theorem C3_atom_link_text_first_witness :
    (exAtomBoth.findChild "channel" = none) ∧
    ((("T", "", ["http://t"]) : Entry) ∈ extract_entries exAtomBoth 5) ∧
    (∃ ent ∈ exAtomBoth.findallDesc (atom_ns ++ "entry"),
      (("T", "", ["http://t"]) : Entry).2.2
        = _collect_links (ent.findall (atom_ns ++ "link")) ∧
      (("T", "", ["http://t"]) : Entry).2.2
        = specCollect (ent.findall (atom_ns ++ "link")) ∧
      ∀ le ∈ ent.findall (atom_ns ++ "link"),
        specCandidate le
          = (if pyStrip (pyOrD le.text "") ≠ "" then pyStrip (pyOrD le.text "")
             else pyStrip ((le.attrib.lookup "href").getD ""))) := by
  have hev : extract_entries exAtomBoth 5 = [("T", "", ["http://t"])] := by
    simp only [extract_entries, exAtomBoth, XmlElem.findallDesc, descendantsList]
    decide
  have hmem : (("T", "", ["http://t"]) : Entry) ∈ extract_entries exAtomBoth 5 := by
    rw [hev]
    decide
  exact ⟨rfl, hmem, C3_atom_link_text_first exAtomBoth 5 rfl _ hmem⟩

/-- C5: the summary of a produced Atom entry is the trimmed summary text
when that is present and non-empty, is the trimmed content text when the
summary is absent or the empty string, and is the empty string when both
are absent. -/
theorem C5_atom_summary_fallback (root : XmlElem) (limit : Int)
    (h : root.findChild "channel" = none) :
    ∀ e ∈ extract_entries root limit,
      ∃ ent ∈ root.findallDesc (atom_ns ++ "entry"),
        e.2.1 = atomSummaryOf ent ∧
        (∀ s, ent.findtext (atom_ns ++ "summary") = some s → s ≠ "" →
          e.2.1 = pyStrip s) ∧
        ((ent.findtext (atom_ns ++ "summary") = none ∨
          ent.findtext (atom_ns ++ "summary") = some "") →
          ∀ c, ent.findtext (atom_ns ++ "content") = some c → e.2.1 = pyStrip c) ∧
        (ent.findtext (atom_ns ++ "summary") = none →
          ent.findtext (atom_ns ++ "content") = none → e.2.1 = "") := by
  intro e he
  unfold extract_entries at he
  rw [h] at he
  have he2 : e ∈ atomGo limit (root.findallDesc (atom_ns ++ "entry")) [] := he
  rcases atomGo_mem limit _ [] e he2 with h0 | ⟨ent, hent, _, hee⟩
  · cases h0
  have hsum : e.2.1 = atomSummaryOf ent := by
    rw [hee]
    simp [atomEntryOf]
  obtain ⟨hc1, hc2⟩ := atomSummary_cases ent
  refine ⟨ent, hent, hsum, ?_, ?_, ?_⟩
  · intro s hs hne
    rw [hsum]
    exact hc1 s hs hne
  · intro h0 c hcim
    rw [hsum]
    exact (hc2 h0).1 c hcim
  · intro hs hcn
    rw [hsum]
    exact (hc2 (Or.inl hs)).2 hcn

/-- Witness for C5 at an Atom document whose entry has no summary and
content " hello ". -/
theorem C5_atom_summary_fallback_witness :
    (exAtomC.findChild "channel" = none) ∧
    ((("T", "hello", []) : Entry) ∈ extract_entries exAtomC 5) ∧
    (∃ ent ∈ exAtomC.findallDesc (atom_ns ++ "entry"),
      (("T", "hello", []) : Entry).2.1 = atomSummaryOf ent ∧
      (∀ s, ent.findtext (atom_ns ++ "summary") = some s → s ≠ "" →
        (("T", "hello", []) : Entry).2.1 = pyStrip s) ∧
      ((ent.findtext (atom_ns ++ "summary") = none ∨
        ent.findtext (atom_ns ++ "summary") = some "") →
        ∀ c, ent.findtext (atom_ns ++ "content") = some c →
          (("T", "hello", []) : Entry).2.1 = pyStrip c) ∧
      (ent.findtext (atom_ns ++ "summary") = none →
        ent.findtext (atom_ns ++ "content") = none →
        (("T", "hello", []) : Entry).2.1 = "")) := by
  have hev : extract_entries exAtomC 5 = [("T", "hello", [])] := by
    simp only [extract_entries, exAtomC, XmlElem.findallDesc, descendantsList]
    decide
  have hmem : (("T", "hello", []) : Entry) ∈ extract_entries exAtomC 5 := by
    rw [hev]
    decide
  exact ⟨rfl, hmem, C5_atom_summary_fallback exAtomC 5 rfl _ hmem⟩

/-- C6 counterexample: on a certificate-verification failure followed by
a successful insecure retry, the bulk cacher's fetch writes its warning
to standard output, not to the error stream as claimed. -/
theorem C6_cacher_warning_counterexample :
    exNetCert SslCtx.verified = Attempt.certFailure ∧
    (download_bytes exNetCert).attempts = [SslCtx.verified, SslCtx.insecure] ∧
    ((download_bytes exNetCert).output.filter
      (fun o => o.1 == StreamKind.stderr)) = [] ∧
    (download_bytes exNetCert).output = [(StreamKind.stdout, cacheWarnMsg)] :=
  ⟨rfl, rfl, rfl, rfl⟩

/-- C6 (amended): on a certificate-verification failure both fetchers
warn exactly once and retry exactly once with verification disabled —
the reader on the error stream, the bulk cacher on standard output; any
other failure propagates with no retry and no output; a clean fetch
writes nothing. -/
theorem C6_cert_fallback_behavior (net : SslCtx → Attempt) :
    (net SslCtx.verified = Attempt.certFailure →
      (fetch_feed net).attempts = [SslCtx.verified, SslCtx.insecure] ∧
      (fetch_feed net).output = [(StreamKind.stderr, fetchWarnMsg)] ∧
      (download_bytes net).attempts = [SslCtx.verified, SslCtx.insecure] ∧
      (download_bytes net).output = [(StreamKind.stdout, cacheWarnMsg)]) ∧
    (net SslCtx.verified = Attempt.otherFailure →
      (fetch_feed net).attempts = [SslCtx.verified] ∧
      (fetch_feed net).output = [] ∧ (fetch_feed net).result = none ∧
      (download_bytes net).attempts = [SslCtx.verified] ∧
      (download_bytes net).output = [] ∧ (download_bytes net).result = none) ∧
    (∀ b, net SslCtx.verified = Attempt.success b →
      (fetch_feed net).output = [] ∧ (fetch_feed net).result = some b ∧
      (download_bytes net).output = [] ∧ (download_bytes net).result = some b) := by
  refine ⟨?_, ?_, ?_⟩
  · intro h
    cases hi : net SslCtx.insecure <;> simp [fetch_feed, download_bytes, h, hi]
  · intro h
    simp [fetch_feed, download_bytes, h]
  · intro b h
    simp [fetch_feed, download_bytes, h]

/-- Witness for the amended C6 on the certificate-failure network. -/
theorem C6_cert_fallback_behavior_witness :
    (exNetCert SslCtx.verified = Attempt.certFailure) ∧
    ((fetch_feed exNetCert).attempts = [SslCtx.verified, SslCtx.insecure] ∧
     (fetch_feed exNetCert).output = [(StreamKind.stderr, fetchWarnMsg)] ∧
     (download_bytes exNetCert).attempts = [SslCtx.verified, SslCtx.insecure] ∧
     (download_bytes exNetCert).output = [(StreamKind.stdout, cacheWarnMsg)]) :=
  ⟨rfl, (C6_cert_fallback_behavior exNetCert).1 rfl⟩

/-- C8: a feed id of the static table resolves to its explicitly mapped
output path when one exists, and to the generated `feeds/feed_<id>.xml`
path otherwise; the resolved pair is what the Bulk Cacher iterates
over. -/
theorem C8_cacher_output_paths : ∀ id nu, (id, nu) ∈ FEEDS →
    ((OUTPUT_FILES.lookup id = none →
      resolveOutputPath id = "feeds/feed_" ++ toString id ++ ".xml" ∧
      (id, "feeds/feed_" ++ toString id ++ ".xml") ∈ cachePlan) ∧
     (∀ p, OUTPUT_FILES.lookup id = some p →
      resolveOutputPath id = p ∧ (id, p) ∈ cachePlan)) := by
  intro id nu hmem
  have hplan : (id, resolveOutputPath id) ∈ cachePlan := by
    unfold cachePlan
    exact List.mem_map.mpr ⟨(id, nu), hmem, rfl⟩
  constructor
  · intro h
    have h1 : resolveOutputPath id = "feeds/feed_" ++ toString id ++ ".xml" := by
      unfold resolveOutputPath
      rw [h]
      rfl
    exact ⟨h1, h1 ▸ hplan⟩
  · intro p h
    have h1 : resolveOutputPath id = p := by
      unfold resolveOutputPath
      rw [h]
      rfl
    exact ⟨h1, h1 ▸ hplan⟩

/-- Witness for C8: feed id 4 is unmapped and resolves to
feeds/feed_4.xml. -/
theorem C8_cacher_output_paths_witness :
    ((4, ("Springer IT", "https://www.springerprofessional.de/rss/rss-feeds/7097080"))
      ∈ FEEDS) ∧
    (OUTPUT_FILES.lookup 4 = none) ∧
    (resolveOutputPath 4 = "feeds/feed_4.xml" ∧
      (4, "feeds/feed_4.xml") ∈ cachePlan) := by
  refine ⟨by decide, rfl, ?_⟩
  have h := (C8_cacher_output_paths 4
    ("Springer IT", "https://www.springerprofessional.de/rss/rss-feeds/7097080")
    (by decide)).1 rfl
  have he : ("feeds/feed_" ++ toString (4 : Nat) ++ ".xml") = "feeds/feed_4.xml" := by
    decide
  rwa [he] at h
